import Mathlib

/-!
Shallow embedding of the twitch-remindme message bot core
(src/message.rs, src/message_store.rs, src/duration_parser.rs,
src/message_parser.rs, src/main.rs), with theorems checking the
specification's claims against the code.

Modelling conventions:
* `OffsetDateTime` timestamps and `Duration` values are integers (seconds).
* Rust `HashSet<Message>` buckets (hashed and compared solely by `Message.id`)
  are lists operated on by id; `HashMap<String, HashSet<Message>>` is an
  association list with unique keys and first-match update, matching a map.
* `ron` serialization is modelled as the identity on the serialized value:
  `save` writes the store's `data` map and `from_path` reads it back.
-/

namespace RemindMe

/-- `Activation` from src/message.rs: a message fires either on the
recipient's next chat line or at a fixed deadline. -/
inductive Activation where
  | onNextMessage : Activation
  | fixed : Int → Activation
deriving DecidableEq

/-- `Message` from src/message.rs. Rust `PartialEq`/`Hash` for `Message`
use only `id`; the embedding keeps structural equality and phrases all
set-membership operations in terms of `id`. -/
structure Message where
  id : String
  activation : Activation
  author : String
  recipient : String
  created : Int
  channel : String
  text : String
deriving DecidableEq

abbrev Bucket := List Message

abbrev StoreData := List (String × Bucket)

/-- Whether a bucket (a `HashSet<Message>`, keyed by id) contains a message
with the given id. -/
def bucketHasId (b : Bucket) (i : String) : Bool :=
  b.any (fun x => x.id == i)

/-- Rust `HashSet::insert` on a set hashed by `id`: when an element with the
same id is already present the set is NOT modified (the old element is
retained); otherwise the new element is added. -/
def bucketInsert (b : Bucket) (m : Message) : Bucket :=
  if bucketHasId b m.id then b else b ++ [m]

/-- Rust `HashSet::remove` (the removal itself): drops the element whose id
matches, if any. -/
def bucketRemoveId (b : Bucket) (i : String) : Bucket :=
  b.filter (fun x => x.id != i)

/-- `HashMap::contains_key` on the bucket index. -/
def containsKey : StoreData → String → Bool
  | [], _ => false
  | p :: rest, u => if p.1 = u then true else containsKey rest u

/-- `HashMap::get` on the bucket index. -/
def lookupBucket : StoreData → String → Option Bucket
  | [], _ => none
  | p :: rest, u => if p.1 = u then some p.2 else lookupBucket rest u

/-- `HashMap::get_mut` followed by an in-place mutation `f` of the bucket:
updates the (unique) entry with the given key, if any. -/
def updateBucket : StoreData → String → (Bucket → Bucket) → StoreData
  | [], _, _ => []
  | p :: rest, u, f => if p.1 = u then (p.1, f p.2) :: rest else p :: updateBucket rest u f

/-- `MessageStore` from src/message_store.rs (the backing path is external
state and not part of the model). -/
structure MessageStore where
  data : StoreData
deriving DecidableEq

/-- `MessageStore::insert` from src/message_store.rs: the `entry(username)`
API — modify the existing bucket with a `HashSet::insert`, or create a fresh
one-element bucket. The bucket key is the `username` argument; the message's
own `recipient` field is not consulted. -/
def MessageStore.insert (s : MessageStore) (username : String) (m : Message) : MessageStore :=
  if containsKey s.data username then ⟨updateBucket s.data username (fun b => bucketInsert b m)⟩
  else ⟨s.data ++ [(username, [m])]⟩

/-- The `drain_filter` predicate of `MessageStore::pop_pending`:
`OnNextMessage` always drains; `Fixed(then)` drains when `now >= then`. -/
def pendingAt (now : Int) (m : Message) : Bool :=
  match m.activation with
  | .onNextMessage => true
  | .fixed deadline => deadline ≤ now

/-- `MessageStore::pop_pending` from src/message_store.rs: drains from the
recipient's bucket every message satisfying `pendingAt now` and returns the
drained messages; a missing bucket yields the empty set and leaves the store
untouched. -/
def MessageStore.pop_pending (s : MessageStore) (username : String) (now : Int) :
    Bucket × MessageStore :=
  match lookupBucket s.data username with
  | none => ([], s)
  | some b =>
      (b.filter (pendingAt now),
       ⟨updateBucket s.data username (fun c => c.filter (fun m => !(pendingAt now m)))⟩)

/-- `MessageStore::remove` from src/message_store.rs (the two-argument form):
removes the message with the given id from the named bucket, if that bucket
exists; the Rust function returns `()`, so only the updated store is
returned. -/
def MessageStore.remove (s : MessageStore) (username : String) (m : Message) : MessageStore :=
  ⟨updateBucket s.data username (fun b => bucketRemoveId b m.id)⟩

/-- Modelled from the spec: the id-only form `remove(message)` called by
src/main.rs (handle_cancel_command, queue_message) is absent from
src/message_store.rs, which only defines the two-argument form. Per the
spec it "removes a specific message by id, searching ... every bucket;
returns whether a removal occurred". -/
def MessageStore.removeById (s : MessageStore) (m : Message) : MessageStore × Bool :=
  (⟨s.data.map (fun p => (p.1, bucketRemoveId p.2 m.id))⟩,
   s.data.any (fun p => bucketHasId p.2 m.id))

/-- `MessageStore::save` from src/message_store.rs: serializes `self.data` —
the per-recipient bucketed map itself — to the backing file. Serialization
is modelled as the identity on the map. -/
def MessageStore.save (s : MessageStore) : StoreData := s.data

/-- `MessageStore::from_path` from src/message_store.rs, restricted to the
cases the claims exercise: a missing file yields the empty map, an existing
file deserializes directly into the bucket map, with no regrouping. -/
def MessageStore.from_path (contents : Option StoreData) : MessageStore :=
  match contents with
  | none => ⟨[]⟩
  | some d => ⟨d⟩

/-- All messages across all buckets, flattened. -/
def storeMessages (s : MessageStore) : List Message :=
  (s.data.map Prod.snd).flatten

/-- Modelled from the spec: the load behaviour the spec describes — "on load,
the store reconstructs the bucket index by grouping on each message's own
`recipient` field". Defined only to compare the spec's description with the
code's `from_path`. -/
def regroupByRecipient (msgs : List Message) : StoreData :=
  msgs.foldl
    (fun d m =>
      if containsKey d m.recipient then updateBucket d m.recipient (fun b => b ++ [m])
      else d ++ [(m.recipient, [m])])
    []

/-! ### Lemmas about the bucket index -/

theorem lookupBucket_updateBucket_self (d : StoreData) (u : String) (f : Bucket → Bucket) :
    lookupBucket (updateBucket d u f) u = (lookupBucket d u).map f := by
  induction d with
  | nil => rfl
  | cons p rest ih =>
      by_cases h : p.1 = u
      · simp [updateBucket, lookupBucket, h]
      · simp [updateBucket, lookupBucket, h, ih]

theorem lookupBucket_updateBucket_ne (d : StoreData) (u v : String) (f : Bucket → Bucket)
    (h : v ≠ u) : lookupBucket (updateBucket d u f) v = lookupBucket d v := by
  induction d with
  | nil => rfl
  | cons p rest ih =>
      by_cases hp : p.1 = u
      · have hpv : ¬ p.1 = v := fun hv => h (hv ▸ hp)
        simp only [updateBucket, if_pos hp, lookupBucket, if_neg hpv]
      · simp only [updateBucket, if_neg hp, lookupBucket]
        by_cases hv : p.1 = v
        · simp [if_pos hv]
        · simp [if_neg hv, ih]

theorem lookupBucket_of_containsKey_false (d : StoreData) (u : String)
    (h : containsKey d u = false) : lookupBucket d u = none := by
  induction d with
  | nil => rfl
  | cons p rest ih =>
      by_cases hp : p.1 = u
      · simp [containsKey, hp] at h
      · simp [containsKey, hp] at h
        simp [lookupBucket, hp, ih h]

theorem lookupBucket_append_of_none (d1 d2 : StoreData) (u : String)
    (h : lookupBucket d1 u = none) : lookupBucket (d1 ++ d2) u = lookupBucket d2 u := by
  induction d1 with
  | nil => rfl
  | cons p rest ih =>
      by_cases hp : p.1 = u
      · simp [lookupBucket, hp] at h
      · simp only [List.cons_append, lookupBucket, hp, if_false, if_neg hp] at h ⊢
        exact ih h

/-! ### Claim C1: what pop_pending returns -/

/-- A message whose fixed deadline (5) is already past at time 10. -/
def mPast : Message := ⟨"idP", .fixed 5, "alice", "u", 0, "chan", "hi"⟩

/-- C1, counterexample: the claim says `pop_pending` "never returns a message
whose activation is Fixed(deadline), regardless of whether the deadline has
passed". The code drains `Fixed(then)` messages once `now >= then`: at time
10 it pops `mPast`, whose activation is `Fixed 5`. -/
theorem pop_pending_returns_expired_fixed :
    mPast ∈ (MessageStore.pop_pending ⟨[("u", [mPast])]⟩ "u" 10).1 ∧
    mPast.activation = Activation.fixed 5 ∧ (5 : Int) ≤ 10 := by
  decide

/-- C1 (amended): for every recipient and store state, `pop_pending(r)`
removes from r's bucket and returns exactly those messages whose activation
is `OnNextMessage` or is `Fixed(deadline)` with `deadline ≤ now`; it never
returns a `Fixed` message whose deadline is still in the future; other
buckets are untouched; and it returns an empty set when r has no bucket. -/
theorem pop_pending_spec (s : MessageStore) (u : String) (now : Int) :
    (lookupBucket s.data u = none → s.pop_pending u now = ([], s)) ∧
    (∀ b, lookupBucket s.data u = some b →
      (s.pop_pending u now).1 = b.filter (pendingAt now) ∧
      lookupBucket (s.pop_pending u now).2.data u =
        some (b.filter (fun m => !(pendingAt now m))) ∧
      (∀ v, v ≠ u → lookupBucket (s.pop_pending u now).2.data v = lookupBucket s.data v)) ∧
    (∀ m, m ∈ (s.pop_pending u now).1 →
      m.activation = Activation.onNextMessage ∨
      ∃ t, m.activation = Activation.fixed t ∧ t ≤ now) := by
  refine ⟨?_, ?_, ?_⟩
  · intro h
    simp [MessageStore.pop_pending, h]
  · intro b hb
    refine ⟨?_, ?_, ?_⟩
    · simp [MessageStore.pop_pending, hb]
    · simp [MessageStore.pop_pending, hb, lookupBucket_updateBucket_self]
    · intro v hv
      simp [MessageStore.pop_pending, hb, lookupBucket_updateBucket_ne _ _ _ _ hv]
  · intro m hm
    rcases hmem : lookupBucket s.data u with _ | b
    · simp [MessageStore.pop_pending, hmem] at hm
    · simp only [MessageStore.pop_pending, hmem] at hm
      have hpend : pendingAt now m = true := List.of_mem_filter hm
      rcases hact : m.activation with _ | t
      · exact Or.inl rfl
      · refine Or.inr ⟨t, rfl, ?_⟩
        simp [pendingAt, hact] at hpend
        exact hpend

/-- A message activated on the recipient's next chat line. -/
def mNext : Message := ⟨"idN", .onNextMessage, "alice", "u", 0, "chan", "yo"⟩

/-- A message whose fixed deadline (99) is still in the future at time 10. -/
def mFuture : Message := ⟨"idF", .fixed 99, "alice", "u", 0, "chan", "later"⟩

/-- A concrete store with one bucket holding all three sample messages. -/
def storePopW : MessageStore := ⟨[("u", [mNext, mFuture, mPast])]⟩

/-- Witness for C1's amended theorem at a concrete store and time: the
pending and expired-fixed messages are popped, the future-fixed one stays. -/
theorem pop_pending_spec_witness :
    (storePopW.pop_pending "u" 10).1 = [mNext, mPast] ∧
    lookupBucket (storePopW.pop_pending "u" 10).2.data "u" = some [mFuture] := by
  have h := (pop_pending_spec storePopW "u" 10).2.1 [mNext, mFuture, mPast] (by decide)
  exact ⟨h.1.trans (by decide), h.2.1.trans (by decide)⟩

/-! ### Claims C3 and C4: persistence format and round-trip -/

/-- A message whose recipient field is "b" (used to distinguish bucket keys
from recipient fields). -/
def mRecB : Message := ⟨"idB", .onNextMessage, "al", "b", 0, "chan", "txt"⟩

/-- C3, counterexample: the claim says the persisted representation is the
flattened message set and that load regroups by each message's recipient
field. In the code `save` writes the bucketed map itself: two stores with the
same flattened message set but different bucketing persist differently, load
adopts the map verbatim (the message stays under bucket "a" even though its
recipient is "b"), and the regrouping the spec describes would have put it
under "b", not "a". -/
theorem save_is_bucketed_counterexample :
    storeMessages ⟨[("a", [mRecB])]⟩ = storeMessages ⟨[("b", [mRecB])]⟩ ∧
    MessageStore.save ⟨[("a", [mRecB])]⟩ ≠ MessageStore.save ⟨[("b", [mRecB])]⟩ ∧
    lookupBucket (MessageStore.from_path (some (MessageStore.save ⟨[("a", [mRecB])]⟩))).data "a" =
      some [mRecB] ∧
    lookupBucket (regroupByRecipient (storeMessages ⟨[("a", [mRecB])]⟩)) "a" = none ∧
    mRecB.recipient = "b" := by
  decide

/-- C3 (amended): the persisted representation is the per-recipient bucketed
map itself; on load the store adopts the deserialized map verbatim — whatever
its bucket keys — with no regrouping on the messages' recipient fields; a
missing file yields the empty store. -/
theorem save_load_bucketed (s : MessageStore) :
    MessageStore.save s = s.data ∧
    MessageStore.from_path (some (MessageStore.save s)) = s ∧
    (∀ d : StoreData, (MessageStore.from_path (some d)).data = d) ∧
    MessageStore.from_path none = ⟨[]⟩ :=
  ⟨rfl, rfl, fun _ => rfl, rfl⟩

/-- C4: saving and loading from the same path reproduces an equivalent set of
messages — the same ids with the same field values — and the flattened
message collection is independent of bucket ordering: permuting the buckets
before saving yields a permutation of the same messages after the round
trip. -/
theorem save_load_round_trip (s s2 : MessageStore) (h : s.data.Perm s2.data) :
    storeMessages (MessageStore.from_path (some (MessageStore.save s))) = storeMessages s ∧
    (storeMessages (MessageStore.from_path (some (MessageStore.save s2)))).Perm
      (storeMessages (MessageStore.from_path (some (MessageStore.save s)))) :=
  ⟨rfl, ((h.symm).map Prod.snd).flatten⟩

/-- Witness for C4 at two concrete stores whose buckets are permutations of
each other. -/
theorem save_load_round_trip_witness :
    storeMessages (MessageStore.from_path
      (some (MessageStore.save ⟨[("a", [mNext]), ("b", [mPast])]⟩))) =
      storeMessages ⟨[("a", [mNext]), ("b", [mPast])]⟩ ∧
    (storeMessages (MessageStore.from_path
      (some (MessageStore.save ⟨[("b", [mPast]), ("a", [mNext])]⟩)))).Perm
      (storeMessages (MessageStore.from_path
        (some (MessageStore.save ⟨[("a", [mNext]), ("b", [mPast])]⟩)))) :=
  save_load_round_trip ⟨[("a", [mNext]), ("b", [mPast])]⟩ ⟨[("b", [mPast]), ("a", [mNext])]⟩
    (by decide)

/-! ### Claim C6: insert semantics -/

/-- A message with id "dup" and text "old". -/
def mOldText : Message := ⟨"dup", .onNextMessage, "x", "u", 0, "c", "old"⟩

/-- A message with the same id "dup" but text "new". -/
def mNewText : Message := ⟨"dup", .onNextMessage, "x", "u", 0, "c", "new"⟩

/-- C6, counterexample: the claim says inserting a message whose id already
exists silently overwrites it (last write wins). In the code the bucket is a
`HashSet` keyed by id and `HashSet::insert` keeps the existing element: after
inserting `mNewText` over `mOldText` (same id, different text) the store is
unchanged and still holds the message with text "old". -/
theorem insert_same_id_keeps_old :
    MessageStore.insert ⟨[("u", [mOldText])]⟩ "u" mNewText = ⟨[("u", [mOldText])]⟩ ∧
    mNewText.id = mOldText.id ∧ mNewText ≠ mOldText ∧
    mOldText.text = "old" ∧ mNewText.text = "new" := by
  decide

theorem containsKey_eq_isSome (d : StoreData) (u : String) :
    containsKey d u = (lookupBucket d u).isSome := by
  induction d with
  | nil => rfl
  | cons p rest ih => by_cases hp : p.1 = u <;> simp [containsKey, lookupBucket, hp, ih]

theorem lookupBucket_append_of_some (d1 d2 : StoreData) (u : String) (b : Bucket)
    (h : lookupBucket d1 u = some b) : lookupBucket (d1 ++ d2) u = some b := by
  induction d1 with
  | nil => simp [lookupBucket] at h
  | cons p rest ih =>
      by_cases hp : p.1 = u
      · simp only [lookupBucket, if_pos hp] at h
        simp [lookupBucket, hp, h]
      · simp only [lookupBucket, if_neg hp] at h
        simp [lookupBucket, hp, ih h]

theorem updateBucket_eq_of_fix (d : StoreData) (u : String) (f : Bucket → Bucket)
    (b : Bucket) (hb : lookupBucket d u = some b) (hf : f b = b) :
    updateBucket d u f = d := by
  induction d with
  | nil => rfl
  | cons p rest ih =>
      by_cases hp : p.1 = u
      · simp only [lookupBucket, if_pos hp] at hb
        cases hb
        simp [updateBucket, if_pos hp, hf]
      · simp only [lookupBucket, if_neg hp] at hb
        simp [updateBucket, if_neg hp, ih hb]

/-- C6 (amended): `insert(username, m)` adds m to the bucket named by the
`username` argument, keyed by id: when no message with m's id is present, m
is added (a fresh one-element bucket if the recipient had none); when a
message with the same id already exists in that bucket, the insert is a
silent no-op that KEEPS the existing message (first write wins); other
buckets are unaffected and insert never fails. -/
theorem insert_spec (s : MessageStore) (u : String) (m : Message) :
    (∀ b, lookupBucket s.data u = some b →
      (bucketHasId b m.id = true → s.insert u m = s) ∧
      (bucketHasId b m.id = false →
        lookupBucket (s.insert u m).data u = some (b ++ [m]))) ∧
    (lookupBucket s.data u = none →
      (s.insert u m).data = s.data ++ [(u, [m])] ∧
      lookupBucket (s.insert u m).data u = some [m]) ∧
    (∀ v, v ≠ u → lookupBucket (s.insert u m).data v = lookupBucket s.data v) := by
  refine ⟨?_, ?_, ?_⟩
  · intro b hb
    have hck : containsKey s.data u = true := by
      rw [containsKey_eq_isSome, hb]; rfl
    constructor
    · intro hhas
      have hup : updateBucket s.data u (fun c => bucketInsert c m) = s.data :=
        updateBucket_eq_of_fix s.data u _ b hb (by simp [bucketInsert, hhas])
      simp [MessageStore.insert, hck, hup]
    · intro hhas
      simp only [MessageStore.insert, hck, if_true]
      rw [lookupBucket_updateBucket_self, hb]
      simp [bucketInsert, hhas]
  · intro hnone
    have hck : containsKey s.data u = false := by
      rw [containsKey_eq_isSome, hnone]; rfl
    refine ⟨by simp [MessageStore.insert, hck], ?_⟩
    simp only [MessageStore.insert, hck, Bool.false_eq_true, if_false]
    rw [lookupBucket_append_of_none _ _ _ hnone]
    simp [lookupBucket]
  · intro v hv
    by_cases hck : containsKey s.data u = true
    · simp only [MessageStore.insert, hck, if_true]
      exact lookupBucket_updateBucket_ne _ _ _ _ hv
    · rw [Bool.not_eq_true] at hck
      simp only [MessageStore.insert, hck, Bool.false_eq_true, if_false]
      rcases hl : lookupBucket s.data v with _ | b
      · rw [lookupBucket_append_of_none _ _ _ hl]
        simp [lookupBucket, if_neg (Ne.symm hv)]
      · exact lookupBucket_append_of_some _ _ _ _ hl

/-- Witness for C6's amended theorem: inserting a message with a fresh id
appends it to the recipient's existing bucket. -/
theorem insert_spec_witness :
    lookupBucket ((MessageStore.insert ⟨[("u", [mOldText])]⟩ "u" mNext).data) "u" =
      some [mOldText, mNext] := by
  have h := ((insert_spec ⟨[("u", [mOldText])]⟩ "u" mNext).1 [mOldText] (by decide)).2 (by decide)
  exact h.trans (by decide)

/-! ### Claim C8: remove semantics and idempotence -/

theorem flatten_map_snd_filter (d : StoreData) (f : Message → Bool) :
    ((d.map (fun p => (p.1, p.2.filter f))).map Prod.snd).flatten =
      ((d.map Prod.snd).flatten).filter f := by
  induction d with
  | nil => rfl
  | cons p rest ih =>
      simp only [List.map_cons, List.flatten_cons, List.filter_append]
      rw [ih]

theorem storeMessages_removeById (s : MessageStore) (m : Message) :
    storeMessages (s.removeById m).1 =
      (storeMessages s).filter (fun x => x.id != m.id) := by
  simpa [MessageStore.removeById, storeMessages, bucketRemoveId] using
    flatten_map_snd_filter s.data (fun x => x.id != m.id)

theorem removeById_flag_iff (s : MessageStore) (m : Message) :
    (s.removeById m).2 = true ↔ ∃ x ∈ storeMessages s, x.id = m.id := by
  simp only [MessageStore.removeById, List.any_eq_true, bucketHasId, beq_iff_eq,
    storeMessages, List.mem_flatten, List.mem_map]
  constructor
  · rintro ⟨p, hp, x, hx, he⟩
    exact ⟨x, ⟨p.2, ⟨p, hp, rfl⟩, hx⟩, he⟩
  · rintro ⟨x, ⟨l, ⟨p, hp, rfl⟩, hx⟩, he⟩
    exact ⟨p, hp, x, hx, he⟩

theorem bucketHasId_bucketRemoveId (b : Bucket) (i : String) :
    bucketHasId (bucketRemoveId b i) i = false := by
  rw [Bool.eq_false_iff]
  intro h
  rcases List.any_eq_true.mp h with ⟨x, hx, he⟩
  have hne := List.of_mem_filter hx
  rw [beq_iff_eq] at he
  rw [bne_iff_ne] at hne
  exact hne he

theorem bucketRemoveId_idem (b : Bucket) (i : String) :
    bucketRemoveId (bucketRemoveId b i) i = bucketRemoveId b i := by
  simp [bucketRemoveId, List.filter_filter]

theorem updateBucket_updateBucket (d : StoreData) (u : String) (f g : Bucket → Bucket) :
    updateBucket (updateBucket d u f) u g = updateBucket d u (fun b => g (f b)) := by
  induction d with
  | nil => rfl
  | cons p rest ih =>
      by_cases hp : p.1 = u
      · simp [updateBucket, hp]
      · simp [updateBucket, hp, ih]

theorem remove_idem (s : MessageStore) (u : String) (m : Message) :
    (s.remove u m).remove u m = s.remove u m := by
  unfold MessageStore.remove
  rw [updateBucket_updateBucket]
  have hfix : (fun b => bucketRemoveId (bucketRemoveId b m.id) m.id) =
      (fun b => bucketRemoveId b m.id) :=
    funext (fun b => bucketRemoveId_idem b m.id)
  rw [hfix]

theorem removeById_fst_idem (s : MessageStore) (m : Message) :
    ((s.removeById m).1.removeById m).1 = (s.removeById m).1 := by
  unfold MessageStore.removeById
  simp only [List.map_map]
  congr 1
  apply List.map_congr_left
  intro p _
  simp [Function.comp, bucketRemoveId_idem]

theorem removeById_snd_idem (s : MessageStore) (m : Message) :
    ((s.removeById m).1.removeById m).2 = false := by
  rw [Bool.eq_false_iff]
  intro h
  rcases List.any_eq_true.mp h with ⟨p, hp, hg⟩
  rcases List.mem_map.mp hp with ⟨q, _, rfl⟩
  rw [bucketHasId_bucketRemoveId] at hg
  exact Bool.false_ne_true hg

/-- C8: confirms (with the id-only form modelled from the spec) that remove
deletes by id — the two-argument form searching the named bucket only, the
id-only form searching every bucket and returning whether a removal
occurred — and that a second remove with the same id is a safe no-op that
reports "not found" and leaves the store unchanged. -/
theorem remove_spec (s : MessageStore) (u : String) (m : Message) :
    ((s.removeById m).2 = true ↔ ∃ x ∈ storeMessages s, x.id = m.id) ∧
    (∀ x, x ∈ storeMessages (s.removeById m).1 ↔ x ∈ storeMessages s ∧ x.id ≠ m.id) ∧
    ((s.removeById m).1.removeById m).1 = (s.removeById m).1 ∧
    ((s.removeById m).1.removeById m).2 = false ∧
    (∀ b, lookupBucket s.data u = some b →
      lookupBucket (s.remove u m).data u = some (bucketRemoveId b m.id)) ∧
    (∀ v, v ≠ u → lookupBucket (s.remove u m).data v = lookupBucket s.data v) ∧
    (s.remove u m).remove u m = s.remove u m := by
  refine ⟨removeById_flag_iff s m, ?_, removeById_fst_idem s m, removeById_snd_idem s m,
    ?_, ?_, remove_idem s u m⟩
  · intro x
    rw [storeMessages_removeById]
    simp [List.mem_filter]
  · intro b hb
    unfold MessageStore.remove
    rw [lookupBucket_updateBucket_self, hb]
    rfl
  · intro v hv
    unfold MessageStore.remove
    exact lookupBucket_updateBucket_ne _ _ _ _ hv

/-- Witness for C8's theorem: removing by id "dup" (via a message sharing
only the id) from a concrete one-bucket store reports success and empties
the bucket. -/
theorem remove_spec_witness :
    (MessageStore.removeById ⟨[("u", [mOldText])]⟩ mNewText).2 = true ∧
    lookupBucket ((MessageStore.remove ⟨[("u", [mOldText])]⟩ "u" mNewText).data) "u" =
      some [] := by
  have h := remove_spec ⟨[("u", [mOldText])]⟩ "u" mNewText
  exact ⟨h.1.mpr ⟨mOldText, by decide, by decide⟩,
    (h.2.2.2.2.1 [mOldText] (by decide)).trans (by decide)⟩

/-! ### Claim C5: reachable-state invariants -/

/-- Store states reachable from the empty store by `insert`, `pop_pending`
and the two forms of `remove`, with arbitrary arguments. -/
inductive Reachable : MessageStore → Prop where
  | empty : Reachable ⟨[]⟩
  | insert {s : MessageStore} (username : String) (m : Message) :
      Reachable s → Reachable (s.insert username m)
  | pop {s : MessageStore} (username : String) (now : Int) :
      Reachable s → Reachable (s.pop_pending username now).2
  | removeOne {s : MessageStore} (username : String) (m : Message) :
      Reachable s → Reachable (s.remove username m)
  | removeAll {s : MessageStore} (m : Message) :
      Reachable s → Reachable (s.removeById m).1

theorem bucketHasId_false_not_mem (b : Bucket) (i : String)
    (h : bucketHasId b i = false) : i ∉ b.map Message.id := by
  intro hmem
  rcases List.mem_map.mp hmem with ⟨x, hx, rfl⟩
  rw [Bool.eq_false_iff] at h
  exact h (List.any_eq_true.mpr ⟨x, hx, beq_self_eq_true _⟩)

theorem bucketInsert_ids_nodup (b : Bucket) (m : Message)
    (h : (b.map Message.id).Nodup) : ((bucketInsert b m).map Message.id).Nodup := by
  unfold bucketInsert
  by_cases hb : bucketHasId b m.id = true
  · simp [hb, h]
  · rw [Bool.not_eq_true] at hb
    simp only [hb, Bool.false_eq_true, if_false, List.map_append]
    rw [List.nodup_append]
    refine ⟨h, by simp, ?_⟩
    intro a ha hmem
    simp only [List.map_cons, List.map_nil, List.mem_singleton] at hmem
    subst hmem
    exact bucketHasId_false_not_mem b m.id hb ha

theorem filter_ids_nodup (b : Bucket) (f : Message → Bool)
    (h : (b.map Message.id).Nodup) : ((b.filter f).map Message.id).Nodup :=
  List.Nodup.sublist (List.Sublist.map Message.id (List.filter_sublist b)) h

theorem updateBucket_preserves (u : String) (f : Bucket → Bucket)
    (P : Bucket → Prop) (hf : ∀ b, P b → P (f b)) :
    ∀ d : StoreData, (∀ p ∈ d, P p.2) → ∀ p ∈ updateBucket d u f, P p.2 := by
  intro d
  induction d with
  | nil => intro _ p hp; simp [updateBucket] at hp
  | cons q rest ih =>
      intro h p hp
      by_cases hq : q.1 = u
      · simp only [updateBucket, if_pos hq, List.mem_cons] at hp
        rcases hp with rfl | hp
        · exact hf q.2 (h q (List.mem_cons_self q rest))
        · exact h p (List.mem_cons_of_mem q hp)
      · simp only [updateBucket, if_neg hq, List.mem_cons] at hp
        rcases hp with rfl | hp
        · exact h p (List.mem_cons_self p rest)
        · exact ih (fun r hr => h r (List.mem_cons_of_mem q hr)) p hp

theorem updateBucket_map_fst (d : StoreData) (u : String) (f : Bucket → Bucket) :
    (updateBucket d u f).map Prod.fst = d.map Prod.fst := by
  induction d with
  | nil => rfl
  | cons p rest ih =>
      by_cases hp : p.1 = u
      · simp [updateBucket, hp]
      · simp [updateBucket, hp, ih]

theorem not_mem_keys_of_containsKey_false (d : StoreData) (u : String)
    (h : containsKey d u = false) : u ∉ d.map Prod.fst := by
  induction d with
  | nil => simp
  | cons p rest ih =>
      by_cases hp : p.1 = u
      · simp [containsKey, hp] at h
      · simp only [containsKey, if_neg hp] at h
        intro hmem
        rcases List.mem_cons.mp hmem with he | hm
        · exact hp he.symm
        · exact ih h hm

/-- C5 (amended): every store state reachable by any sequence of insert,
pop_pending and remove operations has ids unique WITHIN each bucket and
pairwise-distinct bucket keys. (The store does not relate a bucket's key to
its messages' recipient fields and does not enforce id uniqueness across
buckets — see the counterexample.) -/
theorem reachable_store_invariant (s : MessageStore) (h : Reachable s) :
    (∀ p ∈ s.data, (p.2.map Message.id).Nodup) ∧ (s.data.map Prod.fst).Nodup := by
  induction h with
  | empty => exact ⟨by intro p hp; simp at hp, by simp⟩
  | @insert s' username m hr ih =>
      rcases ih with ⟨ihb, ihk⟩
      unfold MessageStore.insert
      by_cases hck : containsKey s'.data username = true
      · simp only [hck, if_true]
        refine ⟨?_, ?_⟩
        · exact updateBucket_preserves username _ _
            (fun b hb => bucketInsert_ids_nodup b m hb) s'.data ihb
        · rw [updateBucket_map_fst]; exact ihk
      · rw [Bool.not_eq_true] at hck
        simp only [hck, Bool.false_eq_true, if_false]
        refine ⟨?_, ?_⟩
        · intro p hp
          rcases List.mem_append.mp hp with hp | hp
          · exact ihb p hp
          · rw [List.mem_singleton] at hp
            subst hp
            simp
        · rw [List.map_append, List.nodup_append]
          refine ⟨ihk, by simp, ?_⟩
          intro a ha hb
          simp only [List.map_cons, List.map_nil, List.mem_singleton] at hb
          subst hb
          exact not_mem_keys_of_containsKey_false _ _ hck ha
  | @pop s' username now hr ih =>
      rcases ih with ⟨ihb, ihk⟩
      unfold MessageStore.pop_pending
      rcases hl : lookupBucket s'.data username with _ | b
      · simp only [hl]
        exact ⟨ihb, ihk⟩
      · simp only [hl]
        refine ⟨?_, ?_⟩
        · exact updateBucket_preserves username _ _
            (fun c hc => filter_ids_nodup c _ hc) s'.data ihb
        · rw [updateBucket_map_fst]; exact ihk
  | @removeOne s' username m hr ih =>
      rcases ih with ⟨ihb, ihk⟩
      unfold MessageStore.remove
      refine ⟨?_, ?_⟩
      · exact updateBucket_preserves username _ _
          (fun c hc => filter_ids_nodup c _ hc) s'.data ihb
      · rw [updateBucket_map_fst]; exact ihk
  | @removeAll s' m hr ih =>
      rcases ih with ⟨ihb, ihk⟩
      unfold MessageStore.removeById
      refine ⟨?_, ?_⟩
      · intro p hp
        rcases List.mem_map.mp hp with ⟨q, hq, rfl⟩
        exact filter_ids_nodup q.2 _ (ihb q hq)
      · rw [List.map_map]
        exact ihk

/-- C5, counterexample: the claim's invariants fail on a reachable state.
Two inserts of the SAME message under different usernames yield a reachable
store where one id appears under two buckets, and where bucket "a" holds a
message whose recipient field is "b" (insert keys by its username argument —
the `Message` the buckets hold is free to disagree). -/
theorem reachable_store_violates_claim :
    Reachable ⟨[("a", [mRecB]), ("b", [mRecB])]⟩ ∧
    lookupBucket [("a", [mRecB]), ("b", [mRecB])] "a" = some [mRecB] ∧
    lookupBucket [("a", [mRecB]), ("b", [mRecB])] "b" = some [mRecB] ∧
    mRecB.recipient = "b" ∧ ("a" : String) ≠ "b" := by
  refine ⟨?_, by decide, by decide, by decide, by decide⟩
  have h := Reachable.insert "b" mRecB (Reachable.insert "a" mRecB Reachable.empty)
  have he : MessageStore.insert (MessageStore.insert ⟨[]⟩ "a" mRecB) "b" mRecB =
      ⟨[("a", [mRecB]), ("b", [mRecB])]⟩ := by decide
  exact he ▸ h

/-- Witness for C5's amended theorem at a concrete reachable store: the "a"
bucket's ids are duplicate-free and the bucket keys are distinct. -/
theorem reachable_store_invariant_witness :
    ((([mRecB] : Bucket)).map Message.id).Nodup ∧
    (([("a", [mRecB]), ("b", [mRecB])] : StoreData).map Prod.fst).Nodup := by
  have h := reachable_store_invariant ⟨[("a", [mRecB]), ("b", [mRecB])]⟩
    (by
      have hr := Reachable.insert "b" mRecB (Reachable.insert "a" mRecB Reachable.empty)
      have he : MessageStore.insert (MessageStore.insert ⟨[]⟩ "a" mRecB) "b" mRecB =
          ⟨[("a", [mRecB]), ("b", [mRecB])]⟩ := by decide
      exact he ▸ hr)
  exact ⟨h.1 ("a", [mRecB]) (by decide), h.2⟩

/-! ### Claim C7: message expansion -/

/-- `Schedule` from src/message_parser.rs. -/
inductive Schedule where
  | none : Schedule
  | relative : Int → Schedule
  | fixed : Int → Schedule
deriving DecidableEq

/-- The `From` conversion from `Schedule` to `Activation` in src/message.rs
(lines 20-28), with `OffsetDateTime::now_utc()` passed explicitly as `now`. -/
def Activation.ofSchedule (now : Int) : Schedule → Activation
  | Schedule.none => Activation.onNextMessage
  | Schedule.relative d => Activation.fixed (now + d)
  | Schedule.fixed t => Activation.fixed t

/-- `MessageDefinition` from src/message_parser.rs (the recipient `HashSet`
as a duplicate-free list). -/
structure MessageDefinition where
  text : String
  created : Int
  schedule : Schedule
  recipients : List String
deriving DecidableEq

/-- `Message::new` from src/message.rs: a fresh id from the id generator and
`created` stamped with the current time; the parser's expansion passes no
channel, so `channel` keeps its `Default` (the empty string). -/
def Message.newAt (now : Int) (idStr : String) (activation : Activation)
    (author recipient text : String) : Message :=
  ⟨idStr, activation, author, recipient, now, "", text⟩

/-- `MessageDefinition::into_messages` from src/message_parser.rs (lines
95-103): one `Message` per recipient in the set, sharing author/text and the
activation derived from the schedule; each `Message::new` call draws a fresh
id, modelled by an id generator indexed by position. No "me" handling
happens here. -/
def MessageDefinition.into_messages (md : MessageDefinition) (author : String)
    (now : Int) (idGen : Nat → String) : List Message :=
  md.recipients.enum.map (fun p =>
    Message.newAt now (idGen p.1) (Activation.ofSchedule now md.schedule) author p.2 md.text)

/-- `HashSet::insert` on the recipient set: a no-op when already present. -/
def setInsert (l : List String) (a : String) : List String :=
  if l.contains a then l else l ++ [a]

/-- The "me" resolution performed by `handle_tell_command` in src/main.rs
(lines 96-98), BEFORE `into_messages` is called: when the literal token "me"
is in the recipient set it is removed and the sender's login is inserted. -/
def resolveMe (recipients : List String) (author : String) : List String :=
  if recipients.contains "me" then setInsert (recipients.filter (fun r => r != "me")) author
  else recipients

/-- The expansion pipeline of `handle_tell_command` (src/main.rs lines
96-100): resolve "me", then expand the definition into messages. -/
def expandTell (md : MessageDefinition) (author : String) (now : Int)
    (idGen : Nat → String) : List Message :=
  MessageDefinition.into_messages
    { md with recipients := resolveMe md.recipients author } author now idGen

/-- C7, counterexample: `into_messages` itself does NOT resolve the literal
recipient "me": expanding a definition whose recipient set is exactly ["me"]
with author "alice" yields one message addressed to "me", not to "alice".
(The resolution happens in the caller, src/main.rs, before expansion.) -/
theorem into_messages_keeps_me :
    ((MessageDefinition.into_messages ⟨"hi", 0, Schedule.none, ["me"]⟩ "alice" 0
      (fun _ => "i")).map Message.recipient = ["me"]) ∧
    ("me" : String) ≠ "alice" := by
  decide

theorem contains_iff_mem (l : List String) (a : String) : l.contains a = true ↔ a ∈ l :=
  List.elem_iff

theorem mem_setInsert_self (l : List String) (a : String) : a ∈ setInsert l a := by
  unfold setInsert
  by_cases h : l.contains a = true
  · simp only [h, if_true]
    exact (contains_iff_mem l a).mp h
  · rw [Bool.not_eq_true] at h
    have hnot : a ∉ l := fun hm => Bool.false_ne_true (h ▸ (contains_iff_mem l a).mpr hm)
    simp [hnot]

/-- C7 (amended): the caller (`handle_tell_command`) first removes the
literal recipient "me" from the recipient set, substituting the author's
handle when it was present, and THEN `into_messages` produces exactly one
`Message` per remaining recipient — all sharing the definition's text, the
author, and the `Activation` derived from the schedule (`None` to
`OnNextMessage`, `Relative(d)` to `Fixed(now+d)`, `Fixed(t)` to `Fixed(t)`) —
each with a distinct id provided the id generator is injective; an empty
post-resolution recipient set yields zero messages. -/
theorem expandTell_spec (md : MessageDefinition) (author : String) (now : Int)
    (idGen : Nat → String) (hinj : Function.Injective idGen) :
    (expandTell md author now idGen).map Message.recipient =
      resolveMe md.recipients author ∧
    (∀ m ∈ expandTell md author now idGen,
      m.text = md.text ∧ m.author = author ∧
      m.activation = Activation.ofSchedule now md.schedule) ∧
    ((expandTell md author now idGen).map Message.id).Nodup ∧
    ("me" ∈ md.recipients → author ∈ resolveMe md.recipients author) ∧
    (author ≠ "me" → "me" ∉ resolveMe md.recipients author) ∧
    (resolveMe md.recipients author = [] → expandTell md author now idGen = []) := by
  refine ⟨?_, ?_, ?_, ?_, ?_, ?_⟩
  · unfold expandTell MessageDefinition.into_messages
    rw [List.map_map]
    exact List.enum_map_snd _
  · intro m hm
    unfold expandTell MessageDefinition.into_messages at hm
    rcases List.mem_map.mp hm with ⟨p, _, rfl⟩
    exact ⟨rfl, rfl, rfl⟩
  · unfold expandTell MessageDefinition.into_messages
    rw [List.map_map]
    show ((resolveMe md.recipients author).enum.map (idGen ∘ Prod.fst)).Nodup
    rw [← List.map_map, List.enum_map_fst]
    exact (List.nodup_range _).map hinj
  · intro hmem
    unfold resolveMe
    rw [if_pos ((contains_iff_mem _ _).mpr hmem)]
    exact mem_setInsert_self _ _
  · intro hne
    unfold resolveMe
    by_cases h : md.recipients.contains "me" = true
    · rw [if_pos h]
      unfold setInsert
      intro hmem
      by_cases h2 : (md.recipients.filter (fun r => r != "me")).contains author = true
      · rw [if_pos h2] at hmem
        have hb := List.of_mem_filter hmem
        simp at hb
      · rw [Bool.not_eq_true] at h2
        simp only [h2, Bool.false_eq_true, if_false] at hmem
        rcases List.mem_append.mp hmem with hmem | hmem
        · have hb := List.of_mem_filter hmem
          simp at hb
        · rw [List.mem_singleton] at hmem
          exact hne hmem.symm
    · rw [Bool.not_eq_true] at h
      simp only [h, Bool.false_eq_true, if_false]
      intro hmem
      rw [← contains_iff_mem] at hmem
      rw [h] at hmem
      exact Bool.false_ne_true hmem
  · intro h
    unfold expandTell MessageDefinition.into_messages
    simp [h]

/-- A concrete injective id generator for witnesses: n copies of 'a'. -/
def idRep (n : Nat) : String := String.mk (List.replicate n 'a')

theorem idRep_injective : Function.Injective idRep := by
  intro a b h
  have hl : List.replicate a 'a' = List.replicate b 'a' := congrArg String.data h
  have hlen := congrArg List.length hl
  simpa using hlen

/-- Witness for C7's amended theorem at a concrete definition (author
"alice", recipients ["me", "bob"]): "me" resolves to "alice" and distinct
ids come out. -/
theorem expandTell_spec_witness :
    (expandTell ⟨"hi", 0, Schedule.none, ["me", "bob"]⟩ "alice" 0 idRep).map
      Message.recipient = ["bob", "alice"] ∧
    ((expandTell ⟨"hi", 0, Schedule.none, ["me", "bob"]⟩ "alice" 0 idRep).map
      Message.id).Nodup := by
  have h := expandTell_spec ⟨"hi", 0, Schedule.none, ["me", "bob"]⟩ "alice" 0 idRep
    idRep_injective
  exact ⟨h.1.trans (by decide), h.2.2.1⟩

/-! ### Claim C9: scheduled-delivery failure handling -/

/-- The world visible to a scheduled-delivery task: the in-memory store and
the persisted file contents. -/
structure World where
  store : MessageStore
  disk : StoreData
deriving DecidableEq

/-- `queue_message` from src/main.rs (lines 213-244), after the suspension:
for a `Fixed`-activation message, attempt the transport send; on a transport
error return early — the store is neither mutated nor saved. On success,
remove the message from the store by id (the `ensure!` fails, skipping the
save, when nothing was removed) and save the store to disk. The `Bool`
result is whether the function returned `Ok`; `OnNextMessage` messages are
not queue_message's business and pass through untouched. -/
def queue_message (w : World) (m : Message) (sendOk : Bool) : Bool × World :=
  match m.activation with
  | Activation.onNextMessage => (true, w)
  | Activation.fixed _ =>
      if sendOk then
        if (w.store.removeById m).2 then
          (true, ⟨(w.store.removeById m).1, MessageStore.save (w.store.removeById m).1⟩)
        else (false, ⟨(w.store.removeById m).1, w.disk⟩)
      else (false, w)

/-- C9: when the transport send of a scheduled (Fixed-activation) message
fails, the message is not removed from the store and the store is not
re-saved — store and disk are unchanged, so the message remains persisted
and will be retried after a restart; the message is removed and the store
saved exactly when the send succeeded (and the message was still present). -/
theorem queue_message_spec (w : World) (m : Message) (t : Int)
    (h : m.activation = Activation.fixed t) :
    queue_message w m false = (false, w) ∧
    ((w.store.removeById m).2 = true →
      queue_message w m true =
        (true, ⟨(w.store.removeById m).1, MessageStore.save (w.store.removeById m).1⟩)) ∧
    ((w.store.removeById m).2 = false →
      queue_message w m true = (false, ⟨(w.store.removeById m).1, w.disk⟩)) := by
  refine ⟨?_, ?_, ?_⟩
  · simp [queue_message, h]
  · intro hr; simp [queue_message, h, hr]
  · intro hr; simp [queue_message, h, hr]

/-- Witness for C9's theorem: a failed send leaves the concrete world
untouched; a successful send removes the message and persists the new
(empty-bucket) map. -/
theorem queue_message_spec_witness :
    queue_message ⟨⟨[("u", [mPast])]⟩, [("u", [mPast])]⟩ mPast false =
      (false, ⟨⟨[("u", [mPast])]⟩, [("u", [mPast])]⟩) ∧
    queue_message ⟨⟨[("u", [mPast])]⟩, [("u", [mPast])]⟩ mPast true =
      (true, ⟨⟨[("u", [])]⟩, [("u", [])]⟩) := by
  have h := queue_message_spec ⟨⟨[("u", [mPast])]⟩, [("u", [mPast])]⟩ mPast 5 (by decide)
  exact ⟨h.1, (h.2.1 (by decide)).trans (by decide)⟩

/-! ### Claims C2 and C10: duration accumulation and 32-bit conversion -/

/-- The unit rules of the duration grammar. -/
inductive DurationUnit where
  | years | months | weeks | days | hours | minutes | seconds
deriving DecidableEq

/-- 2^32, the modulus of Rust u32 arithmetic. -/
def u32Mod : Nat := 4294967296

/-- The per-unit second multipliers of the `From<IntermediateDuration>`
conversion (src/duration_parser.rs lines 78-90). -/
def unitSeconds : DurationUnit → Nat
  | DurationUnit.years => 30779352
  | DurationUnit.months => 2564946
  | DurationUnit.weeks => 604800
  | DurationUnit.days => 86400
  | DurationUnit.hours => 3600
  | DurationUnit.minutes => 60
  | DurationUnit.seconds => 1

/-- `IntermediateDuration` from src/duration_parser.rs: u32 per-unit
accumulators. -/
structure IntermediateDuration where
  years : Nat
  months : Nat
  weeks : Nat
  days : Nat
  hours : Nat
  minutes : Nat
  seconds : Nat
deriving DecidableEq

/-- `IntermediateDuration::default()`: all accumulators zero. -/
def IntermediateDuration.zero : IntermediateDuration := ⟨0, 0, 0, 0, 0, 0, 0⟩

/-- One step of the `handle_rule!` accumulation (src/duration_parser.rs
lines 7-24): `duration.$rule += <count>` in u32 (wrapping) arithmetic. -/
def addUnit (d : IntermediateDuration) (u : DurationUnit) (c : Nat) : IntermediateDuration :=
  match u with
  | DurationUnit.years => { d with years := (d.years + c) % u32Mod }
  | DurationUnit.months => { d with months := (d.months + c) % u32Mod }
  | DurationUnit.weeks => { d with weeks := (d.weeks + c) % u32Mod }
  | DurationUnit.days => { d with days := (d.days + c) % u32Mod }
  | DurationUnit.hours => { d with hours := (d.hours + c) % u32Mod }
  | DurationUnit.minutes => { d with minutes := (d.minutes + c) % u32Mod }
  | DurationUnit.seconds => { d with seconds := (d.seconds + c) % u32Mod }

/-- Modelled from the spec: the duration grammar file (duration.pest) is not
under src/, so a valid duration string is modelled at the token level the
spec describes — whitespace-separated `<integer><unit>` tokens already split
into (count, unit) pairs; `parse::<u32>` fails when a count does not fit 32
bits. The accumulation itself follows `handle_rule!` in
src/duration_parser.rs. -/
def accumTokens : IntermediateDuration → List (Nat × DurationUnit) → Option IntermediateDuration
  | d, [] => some d
  | d, (c, u) :: rest => if c < u32Mod then accumTokens (addUnit d u c) rest else none

/-- Token-level `FromStr for IntermediateDuration`: accumulate from the
default (all-zero) value. -/
def fromTokens (l : List (Nat × DurationUnit)) : Option IntermediateDuration :=
  accumTokens IntermediateDuration.zero l

/-- u32 multiplication (wrapping). -/
def mulW (a b : Nat) : Nat := a * b % u32Mod

/-- u32 addition (wrapping). -/
def addW (a b : Nat) : Nat := (a + b) % u32Mod

/-- The `From<IntermediateDuration> for Duration` conversion
(src/duration_parser.rs lines 78-90): the weighted sum computed entirely in
u32 arithmetic, then widened `as i64` into `Duration::seconds`. -/
def IntermediateDuration.toSeconds (d : IntermediateDuration) : Int :=
  Int.ofNat
    (addW (addW (addW (addW (addW (addW (mulW d.years 30779352) (mulW d.months 2564946))
      (mulW d.weeks 604800)) (mulW d.days 86400)) (mulW d.hours 3600)) (mulW d.minutes 60))
      d.seconds)

/-- The mathematically exact weighted sum over the tokens, as the spec
states it. -/
def weightedSum (l : List (Nat × DurationUnit)) : Nat :=
  (l.map (fun t => t.1 * unitSeconds t.2)).sum

/-- The exact (unwrapped) weighted value held by an accumulator state. -/
def partialVal (d : IntermediateDuration) : Nat :=
  d.years * 30779352 + d.months * 2564946 + d.weeks * 604800 + d.days * 86400 +
    d.hours * 3600 + d.minutes * 60 + d.seconds

theorem toSeconds_eq_partialVal_mod (d : IntermediateDuration) :
    d.toSeconds = Int.ofNat (partialVal d % u32Mod) := by
  unfold IntermediateDuration.toSeconds partialVal addW mulW u32Mod
  congr 1
  omega

theorem accum_partialVal (l : List (Nat × DurationUnit)) :
    ∀ d0 d : IntermediateDuration, accumTokens d0 l = some d →
      partialVal d % u32Mod = (partialVal d0 + weightedSum l) % u32Mod := by
  induction l with
  | nil =>
      intro d0 d h
      simp only [accumTokens, Option.some.injEq] at h
      subst h
      simp [weightedSum]
  | cons t rest ih =>
      intro d0 d h
      rcases t with ⟨c, u⟩
      simp only [accumTokens] at h
      by_cases hc : c < u32Mod
      · rw [if_pos hc] at h
        have hrec := ih (addUnit d0 u c) d h
        have hstep : partialVal (addUnit d0 u c) % u32Mod =
            (partialVal d0 + c * unitSeconds u) % u32Mod := by
          cases u <;> simp only [addUnit, partialVal, unitSeconds, u32Mod] <;> omega
        have hws : weightedSum ((c, u) :: rest) = c * unitSeconds u + weightedSum rest := by
          simp [weightedSum]
        rw [hws]
        simp only [u32Mod] at hrec hstep ⊢
        omega
      · rw [if_neg hc] at h
        simp at h

theorem fromTokens_toSeconds_mod (l : List (Nat × DurationUnit)) (d : IntermediateDuration)
    (h : fromTokens l = some d) : d.toSeconds = Int.ofNat (weightedSum l % u32Mod) := by
  have hp := accum_partialVal l IntermediateDuration.zero d h
  rw [toSeconds_eq_partialVal_mod, hp]
  simp [partialVal, IntermediateDuration.zero]

theorem addUnit_addUnit (d : IntermediateDuration) (u : DurationUnit) (c1 c2 : Nat) :
    addUnit (addUnit d u c1) u c2 = addUnit d u (c1 + c2) := by
  cases u <;> simp only [addUnit, u32Mod] <;> congr 1 <;> omega

/-- The accumulator state for "140y". -/
def d140 : IntermediateDuration := ⟨140, 0, 0, 0, 0, 0, 0⟩

/-- C2, counterexample: for the valid duration string "140y" — a single
token whose count fits u32 — the parsed value is NOT the weighted sum
140 * 30779352 = 4309109280 the claim demands: the u32 conversion wraps and
yields 14141984 seconds. -/
theorem duration_140y_not_weighted_sum :
    fromTokens [(140, DurationUnit.years)] = some d140 ∧
    weightedSum [(140, DurationUnit.years)] = 4309109280 ∧
    d140.toSeconds = Int.ofNat 14141984 ∧
    d140.toSeconds ≠ Int.ofNat 4309109280 := by
  decide

/-- C2 (amended): for every valid duration token list the parsed elapsed
time in seconds equals the weighted sum over its tokens of count times unit
constant (year=30779352, month=2564946, week=604800, day=86400, hour=3600,
minute=60, second=1) WHENEVER that sum is below 2^32 (in general it is that
sum reduced modulo 2^32 — see C10), and repeated tokens of the same unit add
their counts: "1d 2d" parses exactly as "3d". -/
theorem duration_weighted_sum_spec :
    (∀ (l : List (Nat × DurationUnit)) (d : IntermediateDuration),
      fromTokens l = some d → weightedSum l < u32Mod →
      d.toSeconds = Int.ofNat (weightedSum l)) ∧
    (∀ (c1 c2 : Nat) (u : DurationUnit) (rest : List (Nat × DurationUnit)),
      c1 + c2 < u32Mod →
      fromTokens ((c1, u) :: (c2, u) :: rest) = fromTokens ((c1 + c2, u) :: rest)) := by
  constructor
  · intro l d h hlt
    rw [fromTokens_toSeconds_mod l d h, Nat.mod_eq_of_lt hlt]
  · intro c1 c2 u rest hlt
    have h1 : c1 < u32Mod := lt_of_le_of_lt (Nat.le_add_right c1 c2) hlt
    have h2 : c2 < u32Mod := lt_of_le_of_lt (Nat.le_add_left c2 c1) hlt
    unfold fromTokens
    simp only [accumTokens]
    rw [if_pos h1, if_pos h2, if_pos hlt, addUnit_addUnit]

/-- Witness for C2's amended theorem: "1d 2d" evaluates to 259200 = 3 days
worth of seconds and accumulates exactly like "3d". -/
theorem duration_weighted_sum_spec_witness :
    IntermediateDuration.toSeconds ⟨0, 0, 0, 3, 0, 0, 0⟩ =
      Int.ofNat (weightedSum [(1, DurationUnit.days), (2, DurationUnit.days)]) ∧
    fromTokens [(1, DurationUnit.days), (2, DurationUnit.days)] =
      fromTokens [(3, DurationUnit.days)] := by
  refine ⟨duration_weighted_sum_spec.1 [(1, DurationUnit.days), (2, DurationUnit.days)]
    ⟨0, 0, 0, 3, 0, 0, 0⟩ (by decide) (by decide), ?_⟩
  exact duration_weighted_sum_spec.2 1 2 DurationUnit.days [] (by decide)

/-- C10: the conversion to seconds happens in 32-bit unsigned arithmetic
before widening to 64 bits: every successfully parsed token list yields the
weighted sum reduced modulo 2^32, and for "140y" — whose only numeric token,
140, fits u32 while the weighted total 4309109280 exceeds 2^32 - 1 — the
result is 4309109280 mod 2^32 = 14141984, not the sum itself. -/
theorem toSeconds_u32_wraps :
    (∀ (l : List (Nat × DurationUnit)) (d : IntermediateDuration),
      fromTokens l = some d → d.toSeconds = Int.ofNat (weightedSum l % u32Mod)) ∧
    (fromTokens [(140, DurationUnit.years)] = some d140 ∧
      (140 : Nat) < u32Mod ∧
      u32Mod ≤ weightedSum [(140, DurationUnit.years)] ∧
      d140.toSeconds = Int.ofNat (weightedSum [(140, DurationUnit.years)] % u32Mod) ∧
      d140.toSeconds ≠ Int.ofNat (weightedSum [(140, DurationUnit.years)])) :=
  ⟨fromTokens_toSeconds_mod, by decide⟩

/-- Witness for C10's theorem at the concrete input "140y". -/
theorem toSeconds_u32_wraps_witness :
    IntermediateDuration.toSeconds d140 =
      Int.ofNat (weightedSum [(140, DurationUnit.years)] % u32Mod) :=
  toSeconds_u32_wraps.1 [(140, DurationUnit.years)] d140 (by decide)

end RemindMe
